import Mathlib

/-!
Shallow embedding of the workspace symbol index (`SymbolIndex` in
src/StringHelpers.ahk, second document: symbolIndex.ts) and of the
diagnostic aggregation layer (`DiagnosticAggregator` in
src/src/alpha/DiagnosticAggregator.ts).

Strings are modelled as `List Char` (`Str`).  JavaScript `Map`s are
modelled as insertion-ordered association lists with the exact `Map`
semantics: `set` on an existing key updates the value in place, `set`
on a new key appends, `delete` removes the entry, iteration follows
insertion order.

The declaration scanner (`ImportParser.parseExports` / `parseImports`)
and the module resolver are external collaborators whose deterministic
outputs are passed to the index operations as arguments, exactly the
values the source reads from them.
-/

abbrev Str := List Char

def str (s : String) : Str := s.data

def quoteChar : Char := Char.ofNat 39

def backslashChar : Char := Char.ofNat 92

def slashChar : Char := Char.ofNat 47

def colonChar : Char := Char.ofNat 58

/-- JS `Map.get`: first (unique) entry with the given key. -/
def mapGet {α β : Type} [DecidableEq α] (m : List (α × β)) (k : α) : Option β :=
  match m with
  | [] => none
  | (k', v) :: rest => if k' = k then some v else mapGet rest k

/-- JS `map.get(k) || d` / `map.get(k) ?? d`. -/
def mapGetD {α β : Type} [DecidableEq α] (m : List (α × β)) (k : α) (d : β) : β :=
  (mapGet m k).getD d

/-- JS `Map.has`. -/
def mapHas {α β : Type} [DecidableEq α] (m : List (α × β)) (k : α) : Bool :=
  (mapGet m k).isSome

/-- In-place update of the entry holding key `k` (identity on other
entries). -/
def updateEntry {α β : Type} [DecidableEq α] (k : α) (v : β) (p : α × β) :
    α × β :=
  if p.1 = k then (k, v) else p

/-- JS `Map.set`: update in place when the key exists, append otherwise. -/
def mapSet {α β : Type} [DecidableEq α] (m : List (α × β)) (k : α) (v : β) :
    List (α × β) :=
  if mapHas m k then m.map (updateEntry k v)
  else m ++ [(k, v)]

/-- JS `Map.delete`. -/
def mapDelete {α β : Type} [DecidableEq α] (m : List (α × β)) (k : α) :
    List (α × β) :=
  m.filter (fun p => p.1 ≠ k)

/-- Source range, as in `vscode.Range` (line/character pairs). -/
structure VsRange where
  startLine : Nat
  startChar : Nat
  endLine : Nat
  endChar : Nat
deriving DecidableEq

/-- ExportStatement record produced by the declaration scanner
(fields as used by symbolIndex.ts). -/
structure ExportStatement where
  symbolName : Str
  symbolType : Str
  isDefault : Bool
  range : VsRange
deriving DecidableEq

/-- One `{name, alias?}` entry of a named import (`aliasName` models the
`alias` field; `alias` is reserved in Lean). -/
structure ImportSymbol where
  name : Str
  aliasName : Option Str
deriving DecidableEq

/-- ImportStatement record produced by the declaration scanner
(fields as used by symbolIndex.ts). -/
structure ImportStatement where
  moduleName : Str
  type : Str
  isWildcard : Bool
  symbols : List ImportSymbol
  range : VsRange
deriving DecidableEq

/-- SymbolInfo: `location` is modelled by its two components
(`moduleUri` doubles as `location.uri`, as in the source where the
location is built from `moduleInfo.uri`). -/
structure SymbolInfo where
  name : Str
  moduleName : Str
  moduleUri : Str
  type : Str
  locationRange : VsRange
deriving DecidableEq

/-- ModuleInfo (the `uri` field is the file system path `uri.fsPath`,
which is the identity the index uses everywhere). -/
structure ModuleInfo where
  uri : Str
  name : Str
  exports : List ExportStatement
  imports : List ImportStatement
  indexed : Bool
  lastModified : Nat
deriving DecidableEq

/-- The four private maps of the `SymbolIndex` class. -/
structure SymbolIndexState where
  modules : List (Str × ModuleInfo)
  symbolsByModule : List (Str × List SymbolInfo)
  symbolsByName : List (Str × List SymbolInfo)
  wildcardImportsByDocument : List (Str × List Str)
deriving DecidableEq

def emptyIndex : SymbolIndexState := ⟨[], [], [], []⟩

/-- The SymbolInfo built for one export inside `indexSymbols`. -/
def symbolOfExport (m : ModuleInfo) (e : ExportStatement) : SymbolInfo :=
  { name := e.symbolName
    moduleName := m.name
    moduleUri := m.uri
    type := e.symbolType
    locationRange := e.range }

/-- One iteration of the `for (const exportStmt of moduleInfo.exports)`
loop of `indexSymbols`: push the symbol onto the per-call list and onto
the name-based index (creating the bucket when absent). -/
def indexSymbolsStep (m : ModuleInfo)
    (acc : List SymbolInfo × List (Str × List SymbolInfo))
    (e : ExportStatement) :
    List SymbolInfo × List (Str × List SymbolInfo) :=
  let symbol := symbolOfExport m e
  (acc.1 ++ [symbol],
   mapSet acc.2 symbol.name (mapGetD acc.2 symbol.name [] ++ [symbol]))

/-- `SymbolIndex.indexSymbols` (symbolIndex.ts, lines 204-226). -/
def indexSymbols (st : SymbolIndexState) (m : ModuleInfo) : SymbolIndexState :=
  let res := m.exports.foldl (indexSymbolsStep m) ([], st.symbolsByName)
  { st with
    symbolsByName := res.2
    symbolsByModule := mapSet st.symbolsByModule m.name res.1 }

/-- `SymbolIndex.indexWildcardImports` (symbolIndex.ts, lines 185-199). -/
def indexWildcardImports (st : SymbolIndexState) (uri : Str)
    (imports : List ImportStatement) : SymbolIndexState :=
  let wildcardModules := (imports.filter (fun i => i.isWildcard)).map
    (fun i => i.moduleName)
  if 0 < wildcardModules.length then
    { st with wildcardImportsByDocument :=
        mapSet st.wildcardImportsByDocument uri wildcardModules }
  else
    { st with wildcardImportsByDocument :=
        mapDelete st.wildcardImportsByDocument uri }

/-- `SymbolIndex.indexFile` (symbolIndex.ts, lines 142-180), successful
path.  The document text has already been scanned: `moduleName` is the
resolver result and `exports`/`imports` are the scanner results for the
current text; `now` is `Date.now()`. -/
def indexFile (st : SymbolIndexState) (uri moduleName : Str)
    (exports : List ExportStatement) (imports : List ImportStatement)
    (now : Nat) : SymbolIndexState :=
  let moduleInfo : ModuleInfo :=
    { uri := uri, name := moduleName, exports := exports, imports := imports
      indexed := true, lastModified := now }
  let st1 := { st with modules := mapSet st.modules uri moduleInfo }
  let st2 := indexSymbols st1 moduleInfo
  indexWildcardImports st2 uri imports

/-- One iteration of the `for (const exportStmt of moduleInfo.exports)`
loop of `removeFile`: filter the module's symbols out of the bucket for
that export name, deleting the bucket when it becomes empty. -/
def removeSymbolsStep (uri : Str) (sbn : List (Str × List SymbolInfo))
    (e : ExportStatement) : List (Str × List SymbolInfo) :=
  match mapGet sbn e.symbolName with
  | none => sbn
  | some symbols =>
    let filtered := symbols.filter (fun s => s.moduleUri ≠ uri)
    if 0 < filtered.length then mapSet sbn e.symbolName filtered
    else mapDelete sbn e.symbolName

/-- `SymbolIndex.removeFile` (symbolIndex.ts, lines 231-251). -/
def removeFile (st : SymbolIndexState) (uri : Str) : SymbolIndexState :=
  match mapGet st.modules uri with
  | none => st
  | some moduleInfo =>
    let sbm := mapDelete st.symbolsByModule moduleInfo.name
    let sbn := moduleInfo.exports.foldl (removeSymbolsStep uri) st.symbolsByName
    { st with
      symbolsByModule := sbm
      symbolsByName := sbn
      modules := mapDelete st.modules uri }

/-- `SymbolIndex.getModuleExports` (symbolIndex.ts, lines 256-258). -/
def getModuleExports (st : SymbolIndexState) (moduleName : Str) :
    List SymbolInfo :=
  mapGetD st.symbolsByModule moduleName []

/-- `SymbolIndex.getSymbolsByName` (symbolIndex.ts, lines 263-265). -/
def getSymbolsByName (st : SymbolIndexState) (name : Str) : List SymbolInfo :=
  mapGetD st.symbolsByName name []

/-- `SymbolIndex.getModuleByName` (symbolIndex.ts, lines 270-277):
first module, in map insertion order, whose name matches. -/
def getModuleByName (st : SymbolIndexState) (moduleName : Str) :
    Option ModuleInfo :=
  (st.modules.map (fun p => p.2)).find? (fun m => decide (m.name = moduleName))

/-- `SymbolIndex.isSymbolExportedBy` (symbolIndex.ts, lines 289-292). -/
def isSymbolExportedBy (st : SymbolIndexState) (symbolName moduleName : Str) :
    Bool :=
  (getModuleExports st moduleName).any (fun s => decide (s.name = symbolName))

/-- `SymbolIndex.getWildcardImportedSymbols` (symbolIndex.ts,
lines 333-346). -/
def getWildcardImportedSymbols (st : SymbolIndexState) (uri : Str) :
    List SymbolInfo :=
  match mapGet st.wildcardImportsByDocument uri with
  | none => []
  | some wildcardModules =>
    if wildcardModules.length = 0 then []
    else wildcardModules.foldl
      (fun symbols moduleName => symbols ++ getModuleExports st moduleName) []

/-- `SymbolIndex.isSymbolFromWildcardImport` (symbolIndex.ts,
lines 351-354). -/
def isSymbolFromWildcardImport (st : SymbolIndexState) (uri symbolName : Str) :
    Bool :=
  (getWildcardImportedSymbols st uri).any (fun s => decide (s.name = symbolName))

/-- `SymbolIndex.getWildcardImportSourceModule` (symbolIndex.ts,
lines 359-370): first wildcard-imported module, in declaration order,
exporting the symbol. -/
def getWildcardImportSourceModule (st : SymbolIndexState)
    (uri symbolName : Str) : Option Str :=
  match mapGet st.wildcardImportsByDocument uri with
  | none => none
  | some wildcardModules =>
    wildcardModules.find? (fun m => isSymbolExportedBy st symbolName m)

/-- Target module names of a module's recorded imports, in order
(the edges followed by `detectCircularDependencies`). -/
def importNames (m : ModuleInfo) : List Str :=
  m.imports.map (fun i => i.moduleName)

/-- First index of a module name on the traversal path
(JS `Array.prototype.indexOf`). -/
def indexOfStr (x : Str) : List Str → Nat
  | [] => 0
  | y :: ys => if y = x then 0 else indexOfStr x ys + 1

/-- Mutable state of the `dfs` closure inside
`detectCircularDependencies`. -/
structure DfsState where
  cycles : List (List Str)
  visited : List Str
  path : List Str
deriving DecidableEq

/-- The `dfs` closure of `SymbolIndex.detectCircularDependencies`
(symbolIndex.ts, lines 380-401).  The recursion is driven by a fuel
parameter; `detectCircularDependencies` supplies fuel exceeding the
maximal possible recursion depth (each nesting level either returns at
once or adds a fresh name to `visited`), so the fuel never runs out on
the instances the theorems evaluate. -/
def dfs (st : SymbolIndexState) : Nat → DfsState → Str → DfsState
  | 0, s, _ => s
  | fuel + 1, s, moduleName =>
    if moduleName ∈ s.path then
      let cycleStart := indexOfStr moduleName s.path
      { s with cycles := s.cycles ++ [s.path.drop cycleStart ++ [moduleName]] }
    else if moduleName ∈ s.visited then s
    else
      let s1 := { s with visited := s.visited ++ [moduleName],
                         path := s.path ++ [moduleName] }
      let s2 := match getModuleByName st moduleName with
        | none => s1
        | some m => (importNames m).foldl (fun acc imp => dfs st fuel acc imp) s1
      { s2 with path := s2.path.dropLast }

/-- Fuel bound for `dfs`: one more than the number of names that can
ever enter `visited` (the start name plus every import target). -/
def dfsFuel (st : SymbolIndexState) : Nat :=
  st.modules.length + (st.modules.map (fun p => p.2.imports.length)).sum + 1

/-- `SymbolIndex.detectCircularDependencies` (symbolIndex.ts,
lines 375-405). -/
def detectCircularDependencies (st : SymbolIndexState) (startModule : Str) :
    List (List Str) :=
  (dfs st (dfsFuel st) { cycles := [], visited := [], path := [] }
    startModule).cycles

/-- JS word character, the `\w` class: `[A-Za-z0-9_]`. -/
def isWordChar (c : Char) : Bool :=
  (Char.ofNat 97 ≤ c && c ≤ Char.ofNat 122) ||
  (Char.ofNat 65 ≤ c && c ≤ Char.ofNat 90) ||
  (Char.ofNat 48 ≤ c && c ≤ Char.ofNat 57) ||
  c = Char.ofNat 95

/-- JS `String.prototype.includes`: the needle occurs as a contiguous
substring. -/
def containsSub (needle : Str) : Str → Bool
  | [] => needle.isEmpty
  | c :: rest => needle.isPrefixOf (c :: rest) || containsSub needle rest

/-- One attempt of the regex `/Variable '(\w+)'/` at a fixed position:
the literal `Variable '`, then a maximal nonempty run of word
characters, then `'`.  (Backtracking the greedy `\w+` cannot help: any
shorter run is followed by a word character, never by the quote.) -/
def matchVariablePattern (s : Str) : Option Str :=
  let lit := str "Variable " ++ [quoteChar]
  if lit.isPrefixOf s then
    let after := s.drop lit.length
    let word := after.takeWhile isWordChar
    let rest := after.dropWhile isWordChar
    if word ≠ [] ∧ rest.head? = some quoteChar then some word else none
  else none

/-- The capture of `message.match(/Variable '(\w+)'/)`: first position,
scanning left to right, where the pattern matches. -/
def extractVariableName : Str → Option Str
  | [] => none
  | c :: rest =>
    match matchVariablePattern (c :: rest) with
    | some w => some w
    | none => extractVariableName rest

/-- Raw diagnostic handed to `setAlphaDiagnostics` (shape as read by
DiagnosticAggregator.ts: file, 1-based positions, message, severity
string, optional code/extra/source). -/
structure AlphaDiagnostic where
  file : Str
  line : Int
  column : Int
  endLine : Int
  endColumn : Int
  message : Str
  severity : Str
  code : Option Str
  extra : Option Str
  source : Option Str
deriving DecidableEq

/-- Converted diagnostic (shape of `vscode.Diagnostic` as the
aggregator uses it; severity is the `vscode.DiagnosticSeverity` enum
value: Error 0, Warning 1, Information 2, Hint 3). -/
structure Diagnostic where
  range : VsRange
  message : Str
  severity : Nat
  source : Option Str
  code : Option Str
deriving DecidableEq

/-- Diagnostic source tags (`DiagnosticSource`). -/
inductive DiagnosticSource
  | alpha
  | lsp
  | staticLint
  | custom
deriving DecidableEq

/-- `SOURCE_PRIORITY` (DiagnosticAggregator.ts, lines 19-24): lower
number = higher priority. -/
def SOURCE_PRIORITY : DiagnosticSource → Nat
  | .alpha => 1
  | .lsp => 2
  | .staticLint => 3
  | .custom => 4

/-- `AggregatedDiagnostic`: diagnostic plus its source and priority. -/
structure AggregatedDiagnostic where
  diagnostic : Diagnostic
  source : DiagnosticSource
  priority : Nat
deriving DecidableEq

/-- The `diagnostics` map of the class: normalized uri -> (source ->
stored list). -/
structure AggregatorState where
  diagnostics : List (Str × List (DiagnosticSource × List Diagnostic))
deriving DecidableEq

def emptyAggregator : AggregatorState := ⟨[]⟩

/-- `DiagnosticAggregator.normalizeUri` (lines 313-315):
`uri.fsPath.toLowerCase().replace(/\\/g, '/')`. -/
def normalizeUri (fsPath : Str) : Str :=
  (fsPath.map Char.toLower).map
    (fun c => if c = backslashChar then slashChar else c)

/-- `DiagnosticAggregator.normalizeFilePath` (lines 320-322):
`path.normalize(filePath).toLowerCase()`.  `path.normalize` is the
Node.js library routine, an external collaborator, passed in as
`pathNormalize`. -/
def normalizeFilePath (pathNormalize : Str → Str) (filePath : Str) : Str :=
  (pathNormalize filePath).map Char.toLower

/-- `DiagnosticAggregator.setDiagnostics` (lines 51-75), restricted to
the private `diagnostics` store (the mirrored `vscode.DiagnosticCollection`
and output-channel logging are editor-side effects). -/
def setDiagnostics (st : AggregatorState) (uriFsPath : Str)
    (source : DiagnosticSource) (ds : List Diagnostic) : AggregatorState :=
  let key := normalizeUri uriFsPath
  let fileDiagnostics := mapGetD st.diagnostics key []
  ⟨mapSet st.diagnostics key (mapSet fileDiagnostics source ds)⟩

/-- `DiagnosticAggregator.toVsCodeSeverity` (lines 293-301): the
`default` branch maps every unknown severity to Error. -/
def toVsCodeSeverity (severity : Str) : Nat :=
  if severity = str "error" then 0
  else if severity = str "warning" then 1
  else if severity = str "info" then 2
  else if severity = str "hint" then 3
  else 0

/-- JS truthiness of an optional string (`undefined` and the empty
string are falsy). -/
def strTruthy (o : Option Str) : Bool :=
  match o with
  | none => false
  | some s => !s.isEmpty

/-- `Math.max(0, v)` on an integer position, as a natural number. -/
def clampToNat (v : Int) : Nat := (max 0 v).toNat

/-- `DiagnosticAggregator.convertAlphaDiagnostic` (lines 259-288).
The end character is `Math.max(0, d.endColumn - 1) || 999`: the 999
fallback fires whenever the clamped value is 0 (falsy). -/
def convertAlphaDiagnostic (d : AlphaDiagnostic) : Diagnostic :=
  let endCharacter :=
    if clampToNat (d.endColumn - 1) = 0 then 999
    else clampToNat (d.endColumn - 1)
  let range : VsRange :=
    { startLine := clampToNat (d.line - 1)
      startChar := clampToNat (d.column - 1)
      endLine := clampToNat (d.endLine - 1)
      endChar := endCharacter }
  let message :=
    if strTruthy d.extra then
      d.message ++ str "\nSpecifically: " ++ (d.extra.getD [])
    else d.message
  { range := range
    message := message
    severity := toVsCodeSeverity d.severity
    source := some (if strTruthy d.source then d.source.getD []
                    else str "ahk-alpha")
    code := if strTruthy d.code then d.code else none }

/-- `DiagnosticAggregator.isWildcardImportSymbolWarning` (lines 92-109).
The symbol index consulted through `SymbolIndex.getInstance()` is the
`idx` argument. -/
def isWildcardImportSymbolWarning (idx : SymbolIndexState) (uriFsPath : Str)
    (d : AlphaDiagnostic) : Bool :=
  if !containsSub (str "appears to never be assigned") d.message then false
  else
    match extractVariableName d.message with
    | none => false
    | some variableName => isSymbolFromWildcardImport idx uriFsPath variableName

/-- `DiagnosticAggregator.setAlphaDiagnostics` (lines 80-87): keep only
entries whose normalized file path equals the target uri's, drop
wildcard-import warnings, convert, store under the `alpha` source. -/
def setAlphaDiagnostics (pathNormalize : Str → Str) (idx : SymbolIndexState)
    (st : AggregatorState) (uriFsPath : Str)
    (alphaDiagnostics : List AlphaDiagnostic) : AggregatorState :=
  let ds := (((alphaDiagnostics.filter (fun d =>
      decide (normalizeFilePath pathNormalize d.file =
        normalizeFilePath pathNormalize uriFsPath))).filter (fun d =>
      !isWildcardImportSymbolWarning idx uriFsPath d)).map
      convertAlphaDiagnostic)
  setDiagnostics st uriFsPath .alpha ds

/-- Merge step of `getDiagnostics` (lines 124-132): all sources'
stored lists in map insertion order, each entry wrapped with its
source and priority. -/
def mergeFileDiagnostics
    (fileDiagnostics : List (DiagnosticSource × List Diagnostic)) :
    List AggregatedDiagnostic :=
  fileDiagnostics.foldl
    (fun result p => result ++ p.2.map (fun d =>
      { diagnostic := d, source := p.1, priority := SOURCE_PRIORITY p.1 }))
    []

/-- The comparator of `getDiagnostics` (lines 135-140), as the total
preorder it sorts by: first priority, then start line. -/
def sortedLE (a b : AggregatedDiagnostic) : Prop :=
  a.priority < b.priority ∨
  (a.priority = b.priority ∧
    a.diagnostic.range.startLine ≤ b.diagnostic.range.startLine)

instance : DecidablePred fun p : AggregatedDiagnostic × AggregatedDiagnostic =>
    sortedLE p.1 p.2 :=
  fun _ => by unfold sortedLE; infer_instance

instance (a b : AggregatedDiagnostic) : Decidable (sortedLE a b) := by
  unfold sortedLE; infer_instance

def aggLE (a b : AggregatedDiagnostic) : Bool := decide (sortedLE a b)

/-- The merged, unsorted view of one file's diagnostics. -/
def mergedDiagnostics (st : AggregatorState) (uriFsPath : Str) :
    List AggregatedDiagnostic :=
  match mapGet st.diagnostics (normalizeUri uriFsPath) with
  | none => []
  | some fileDiagnostics => mergeFileDiagnostics fileDiagnostics

/-- `DiagnosticAggregator.getDiagnostics` (lines 114-141).  JS
`Array.prototype.sort` is stable with this comparator, so it is
modelled by the stable `List.mergeSort` under `aggLE`. -/
def getDiagnostics (st : AggregatorState) (uriFsPath : Str) :
    List AggregatedDiagnostic :=
  match mapGet st.diagnostics (normalizeUri uriFsPath) with
  | none => []
  | some fileDiagnostics => (mergeFileDiagnostics fileDiagnostics).mergeSort aggLE

/-- `DiagnosticAggregator.getDiagnosticsFromSource` (lines 146-150). -/
def getDiagnosticsFromSource (st : AggregatorState) (uriFsPath : Str)
    (source : DiagnosticSource) : List Diagnostic :=
  mapGetD (mapGetD st.diagnostics (normalizeUri uriFsPath) []) source []

/-- `DiagnosticAggregator.diagnosticKey` (lines 306-308):
`line:character:first-50-chars-of-message`. -/
def diagnosticKey (d : Diagnostic) : Str :=
  str (toString d.range.startLine) ++ colonChar ::
    (str (toString d.range.startChar) ++ colonChar :: d.message.take 50)

/-- The `seen` fold of `getDeduplicatedDiagnostics`: insert under the
key only when the key is absent (JS `if (!seen.has(key)) seen.set`). -/
def dedupFold (seen : List (Str × Diagnostic))
    (aggregated : List AggregatedDiagnostic) : List (Str × Diagnostic) :=
  aggregated.foldl
    (fun seen a =>
      let key := diagnosticKey a.diagnostic
      if mapHas seen key then seen else seen ++ [(key, a.diagnostic)])
    seen

/-- `DiagnosticAggregator.getDeduplicatedDiagnostics` (lines 190-202):
`Array.from(seen.values())` in insertion order. -/
def getDeduplicatedDiagnostics (st : AggregatorState) (uriFsPath : Str) :
    List Diagnostic :=
  (dedupFold [] (getDiagnostics st uriFsPath)).map (fun p => p.2)

/-- `symbol.alias || symbol.name` inside `getUnusedImports` (JS
truthiness: a missing or empty alias falls back to the name). -/
def effectiveName (s : ImportSymbol) : Str :=
  match s.aliasName with
  | none => s.name
  | some a => if a.isEmpty then s.name else a

/-- Match of the regex `\b<name>\b` at a fixed position, for a name
made of word characters: the name is a prefix here, the previous
character (tracked by `prevIsWord`) is not a word character, and the
character after the name, if any, is not a word character. -/
def boundaryMatchAt (name : Str) (prevIsWord : Bool) (s : Str) : Bool :=
  !prevIsWord && name.isPrefixOf s &&
    (match s.drop name.length with
     | [] => true
     | c :: _ => !isWordChar c)

/-- Number of matches of `text.match(new RegExp('\\b' + name + '\\b', 'g'))`:
left-to-right, non-overlapping, resuming right after each match.  The
scan is driven by a fuel bounding the number of remaining characters
(each step consumes at least one character, so fuel equal to the text
length never runs out). -/
def countOccAux (name : Str) : Nat → Bool → Str → Nat
  | 0, _, _ => 0
  | _ + 1, _, [] => 0
  | fuel + 1, prevIsWord, c :: rest =>
    if boundaryMatchAt name prevIsWord (c :: rest) then
      countOccAux name fuel true (rest.drop (name.length - 1)) + 1
    else
      countOccAux name fuel (isWordChar c) rest

def countOcc (text name : Str) : Nat :=
  countOccAux name text.length false text

/-- Match of the regex `\b<moduleName>\.` at a fixed position. -/
def moduleDotMatchAt (moduleName : Str) (prevIsWord : Bool) (s : Str) : Bool :=
  !prevIsWord && (moduleName ++ [Char.ofNat 46]).isPrefixOf s

/-- `new RegExp('\\b' + moduleName + '\\.', 'g').test(text)`. -/
def hasModuleDotAccess (moduleName : Str) : Bool → Str → Bool
  | _, [] => false
  | prev, c :: rest =>
    moduleDotMatchAt moduleName prev (c :: rest) ||
      hasModuleDotAccess moduleName (isWordChar c) rest

/-- The per-import decision of `getUnusedImports`: a named import is
unused when no symbol (alias preferred) occurs more than once. -/
def namedImportUnused (text : Str) (imp : ImportStatement) : Bool :=
  imp.symbols.all (fun s => countOcc text (effectiveName s) ≤ 1)

/-- `SymbolIndex.getUnusedImports` (symbolIndex.ts, lines 410-450).
The scanner result for the document (`ImportParser.parseImports`) is
the `imports` argument and the document text is `text`. -/
def getUnusedImports (imports : List ImportStatement) (text : Str) :
    List ImportStatement :=
  imports.foldl
    (fun unused imp =>
      if imp.isWildcard then unused
      else if imp.type = str "default" then
        if !hasModuleDotAccess imp.moduleName false text then unused ++ [imp]
        else unused
      else if imp.type = str "named" then
        if namedImportUnused text imp then unused ++ [imp] else unused
      else unused)
    []


section MapLemmas

variable {α β : Type} [DecidableEq α]

theorem updateEntry_self (k : α) (v w : β) : updateEntry k v (k, w) = (k, v) := by
  simp [updateEntry]

theorem updateEntry_other (k k' : α) (v : β) (w : β) (h : k' ≠ k) :
    updateEntry k v (k', w) = (k', w) := by
  simp [updateEntry, h]

theorem mapGet_append (m l : List (α × β)) (k : α) :
    mapGet (m ++ l) k = (mapGet m k).or (mapGet l k) := by
  induction m with
  | nil => simp [mapGet]
  | cons p rest ih =>
    obtain ⟨k', v⟩ := p
    by_cases h : k' = k
    · simp [mapGet, h]
    · simp [mapGet, h, ih]

theorem mapGet_map_update (m : List (α × β)) (k : α) (v : β) :
    mapHas m k = true →
    mapGet (m.map (updateEntry k v)) k = some v := by
  induction m with
  | nil => intro h; simp [mapHas, mapGet] at h
  | cons p rest ih =>
    intro h
    obtain ⟨k', w⟩ := p
    simp only [List.map_cons]
    by_cases hk : k' = k
    · subst hk
      rw [updateEntry_self, mapGet, if_pos rfl]
    · rw [updateEntry_other _ _ _ _ hk, mapGet, if_neg hk]
      apply ih
      unfold mapHas at h ⊢
      rw [mapGet, if_neg hk] at h
      exact h

theorem mapGet_map_update_ne (m : List (α × β)) (k k' : α) (v : β)
    (h : k' ≠ k) :
    mapGet (m.map (updateEntry k v)) k' = mapGet m k' := by
  induction m with
  | nil => rfl
  | cons p rest ih =>
    obtain ⟨k₀, w⟩ := p
    simp only [List.map_cons]
    by_cases hk : k₀ = k
    · subst hk
      rw [updateEntry_self, mapGet, mapGet,
        if_neg (fun hc => h hc.symm), if_neg (fun hc => h hc.symm)]
      exact ih
    · rw [updateEntry_other _ _ _ _ hk, mapGet, mapGet]
      by_cases hk' : k₀ = k'
      · rw [if_pos hk', if_pos hk']
      · rw [if_neg hk', if_neg hk']
        exact ih

theorem mapGet_eq_none_of_not_has (m : List (α × β)) (k : α)
    (h : ¬ mapHas m k) : mapGet m k = none := by
  unfold mapHas at h
  cases hg : mapGet m k with
  | none => rfl
  | some w => rw [hg] at h; simp at h

theorem mapGet_mapSet_self (m : List (α × β)) (k : α) (v : β) :
    mapGet (mapSet m k v) k = some v := by
  unfold mapSet
  by_cases h : mapHas m k
  · rw [if_pos h]; exact mapGet_map_update m k v h
  · rw [if_neg h, mapGet_append, mapGet_eq_none_of_not_has m k h]
    rw [mapGet, if_pos rfl]
    rfl

theorem mapGet_mapSet_ne (m : List (α × β)) (k k' : α) (v : β) (h : k' ≠ k) :
    mapGet (mapSet m k v) k' = mapGet m k' := by
  unfold mapSet
  by_cases hh : mapHas m k
  · rw [if_pos hh]; exact mapGet_map_update_ne m k k' v h
  · rw [if_neg hh, mapGet_append]
    have h1 : mapGet [(k, v)] k' = none := by
      rw [mapGet, if_neg (fun hc => h hc.symm)]
      rfl
    rw [h1]
    cases mapGet m k' <;> rfl

theorem mapGet_mapDelete_self (m : List (α × β)) (k : α) :
    mapGet (mapDelete m k) k = none := by
  induction m with
  | nil => rfl
  | cons p rest ih =>
    obtain ⟨k', v⟩ := p
    unfold mapDelete at ih ⊢
    rw [List.filter_cons]
    by_cases h : k' = k
    · have hd : (decide (((k', v) : α × β).1 ≠ k)) = false := by
        simp [h]
      rw [hd]
      simpa using ih
    · have hd : (decide (((k', v) : α × β).1 ≠ k)) = true := by
        simp [h]
      rw [hd]
      simp only [if_true]
      rw [mapGet, if_neg h]
      exact ih

theorem mapGet_mapDelete_ne (m : List (α × β)) (k k' : α) (h : k' ≠ k) :
    mapGet (mapDelete m k) k' = mapGet m k' := by
  induction m with
  | nil => rfl
  | cons p rest ih =>
    obtain ⟨k₀, v⟩ := p
    unfold mapDelete at ih ⊢
    rw [List.filter_cons]
    by_cases hk : k₀ = k
    · subst hk
      have hd : (decide (((k₀, v) : α × β).1 ≠ k₀)) = false := by simp
      rw [hd]
      simp only [Bool.false_eq_true, if_false]
      rw [ih, mapGet, if_neg (fun hc => h hc.symm)]
    · have hd : (decide (((k₀, v) : α × β).1 ≠ k)) = true := by simp [hk]
      rw [hd]
      simp only [if_true]
      rw [mapGet, mapGet, ih]

end MapLemmas

/-- Any-over-union helper: scanning the concatenation built by the
`getWildcardImportedSymbols` fold equals scanning module by module. -/
theorem foldl_append_any {γ : Type} (f : Str → List γ) (p : γ → Bool) :
    ∀ (wm : List Str) (acc : List γ),
      ((wm.foldl (fun a m => a ++ f m) acc).any p) =
        (acc.any p || wm.any (fun m => (f m).any p)) := by
  intro wm
  induction wm with
  | nil => intro acc; simp
  | cons m rest ih =>
    intro acc
    simp only [List.foldl_cons, List.any_cons]
    rw [ih, List.any_append, Bool.or_assoc]

theorem find?_isSome_eq_any {γ : Type} (p : γ → Bool) (l : List γ) :
    (l.find? p).isSome = l.any p := by
  induction l with
  | nil => rfl
  | cons x rest ih =>
    rw [List.any_cons]
    cases h : p x with
    | true => simp [List.find?_cons_of_pos _ h, h]
    | false =>
      rw [List.find?_cons_of_neg _ (by simp [h]), ih]
      simp

/-- C10: for every document D and symbol name N,
`isSymbolFromWildcardImport(D, N)` is true exactly when
`getWildcardImportSourceModule(D, N)` returns some module name: both
queries range over the same wildcard-import record for D and the
current per-module exports, so the boolean membership query and the
resolving query never disagree. -/
theorem wildcard_membership_agrees_with_resolution
    (st : SymbolIndexState) (uri symbolName : Str) :
    isSymbolFromWildcardImport st uri symbolName =
      (getWildcardImportSourceModule st uri symbolName).isSome := by
  unfold isSymbolFromWildcardImport getWildcardImportSourceModule
    getWildcardImportedSymbols
  cases h : mapGet st.wildcardImportsByDocument uri with
  | none => simp
  | some wm =>
    by_cases hlen : wm.length = 0
    · have hwm : wm = [] := List.length_eq_zero.mp hlen
      subst hwm
      simp
    · simp only [if_neg hlen]
      rw [foldl_append_any (getModuleExports st)
        (fun s => decide (s.name = symbolName)) wm []]
      rw [find?_isSome_eq_any]
      simp only [List.any_nil, Bool.false_or]
      rfl

/-- The export record used by the concrete scenarios: a module
exporting the function `Sum`. -/
def sumExport : ExportStatement :=
  { symbolName := str "Sum", symbolType := str "function"
    isDefault := false, range := ⟨0, 0, 0, 0⟩ }

/-- The index after scanning document `d.ahk` (module `M`, exporting
`Sum`) once. -/
def idxOnce : SymbolIndexState :=
  indexFile emptyIndex (str "d.ahk") (str "M") [sumExport] [] 0

/-- The index after re-scanning the same unchanged document a second
time (identical scanner output). -/
def idxTwice : SymbolIndexState :=
  indexFile idxOnce (str "d.ahk") (str "M") [sumExport] [] 0

/-- C1: indexing the same document twice with unchanged text is NOT
idempotent.  `indexSymbols` pushes the new symbols into the
name-to-symbols reverse map without removing the entries the module
contributed before, so the second `indexFile` leaves a duplicate `Sum`
entry and `getSymbolsByName` answers differently after each call. -/
theorem reindex_duplicates_reverse_map :
    (getSymbolsByName idxOnce (str "Sum")).length = 1 ∧
    (getSymbolsByName idxTwice (str "Sum")).length = 2 ∧
    getSymbolsByName idxTwice (str "Sum") ≠ getSymbolsByName idxOnce (str "Sum") := by
  decide

/-- Wildcard import of the module `ArrayHelpers`. -/
def wildcardImportOfM : ImportStatement :=
  { moduleName := str "ArrayHelpers", type := str "wildcard"
    isWildcard := true, symbols := [], range := ⟨0, 0, 0, 0⟩ }

/-- Index holding the module `ArrayHelpers` (file `m.ahk`, exports
`Sum`). -/
def idxModuleM : SymbolIndexState :=
  indexFile emptyIndex (str "m.ahk") (str "ArrayHelpers") [sumExport] [] 0

/-- Index additionally holding document `main.ahk` which
wildcard-imports `ArrayHelpers`. -/
def idxWithMain : SymbolIndexState :=
  indexFile idxModuleM (str "main.ahk") (str "Main") [] [wildcardImportOfM] 0

/-- The ModuleInfo record `indexFile` stored for `main.ahk`. -/
def mainModuleInfo : ModuleInfo :=
  { uri := str "main.ahk", name := str "Main", exports := []
    imports := [wildcardImportOfM], indexed := true, lastModified := 0 }

/-- C3 counterexample: after `removeFile("main.ahk")` the module record
is gone, but `removeFile` never deletes the wildcard-import record
keyed by the document, so `getWildcardImportedSymbols` still returns
the exports of the still-indexed module and
`isSymbolFromWildcardImport` still answers true: the claim is false. -/
theorem remove_file_keeps_wildcard_record :
    mapGet (removeFile idxWithMain (str "main.ahk")).modules (str "main.ahk")
      = none ∧
    getWildcardImportedSymbols (removeFile idxWithMain (str "main.ahk"))
      (str "main.ahk") ≠ [] ∧
    isSymbolFromWildcardImport (removeFile idxWithMain (str "main.ahk"))
      (str "main.ahk") (str "Sum") = true := by
  decide

/-- Bucket property used in the `removeFile` proof: no symbol stored
under `name` was contributed by the file at `uri`. -/
def noUriSymbolsAt (sbn : List (Str × List SymbolInfo)) (uri name : Str) :
    Prop :=
  ∀ s ∈ mapGetD sbn name [], s.moduleUri ≠ uri

theorem removeSymbolsStep_none (uri : Str)
    (sbn : List (Str × List SymbolInfo)) (e : ExportStatement)
    (h : mapGet sbn e.symbolName = none) :
    removeSymbolsStep uri sbn e = sbn := by
  unfold removeSymbolsStep
  rw [h]

theorem removeSymbolsStep_some (uri : Str)
    (sbn : List (Str × List SymbolInfo)) (e : ExportStatement)
    (symbols : List SymbolInfo) (h : mapGet sbn e.symbolName = some symbols) :
    removeSymbolsStep uri sbn e =
      (if 0 < (symbols.filter (fun s => s.moduleUri ≠ uri)).length then
        mapSet sbn e.symbolName (symbols.filter (fun s => s.moduleUri ≠ uri))
      else mapDelete sbn e.symbolName) := by
  unfold removeSymbolsStep
  rw [h]

theorem removeSymbolsStep_establishes (uri : Str)
    (sbn : List (Str × List SymbolInfo)) (e : ExportStatement) :
    noUriSymbolsAt (removeSymbolsStep uri sbn e) uri e.symbolName := by
  unfold noUriSymbolsAt
  cases hg : mapGet sbn e.symbolName with
  | none =>
    rw [removeSymbolsStep_none uri sbn e hg]
    intro s hs
    unfold mapGetD at hs
    rw [hg] at hs
    simp at hs
  | some symbols =>
    rw [removeSymbolsStep_some uri sbn e symbols hg]
    by_cases hlen : 0 < (symbols.filter (fun s => s.moduleUri ≠ uri)).length
    · rw [if_pos hlen]
      intro s hs
      unfold mapGetD at hs
      rw [mapGet_mapSet_self] at hs
      simp only [Option.getD_some] at hs
      have := List.of_mem_filter hs
      simpa using this
    · rw [if_neg hlen]
      intro s hs
      unfold mapGetD at hs
      rw [mapGet_mapDelete_self] at hs
      simp at hs

theorem removeSymbolsStep_preserves (uri name : Str)
    (sbn : List (Str × List SymbolInfo)) (e : ExportStatement)
    (h : noUriSymbolsAt sbn uri name) :
    noUriSymbolsAt (removeSymbolsStep uri sbn e) uri name := by
  by_cases hn : name = e.symbolName
  · subst hn
    exact removeSymbolsStep_establishes uri sbn e
  · cases hg : mapGet sbn e.symbolName with
    | none => rw [removeSymbolsStep_none uri sbn e hg]; exact h
    | some symbols =>
      rw [removeSymbolsStep_some uri sbn e symbols hg]
      by_cases hlen : 0 < (symbols.filter (fun s => s.moduleUri ≠ uri)).length
      · rw [if_pos hlen]
        intro s hs
        apply h s
        unfold mapGetD at hs ⊢
        rwa [mapGet_mapSet_ne _ _ _ _ hn] at hs
      · rw [if_neg hlen]
        intro s hs
        apply h s
        unfold mapGetD at hs ⊢
        rwa [mapGet_mapDelete_ne _ _ _ hn] at hs

theorem removeSymbols_fold_preserves (uri name : Str) :
    ∀ (exports : List ExportStatement) (sbn : List (Str × List SymbolInfo)),
      noUriSymbolsAt sbn uri name →
      noUriSymbolsAt (exports.foldl (removeSymbolsStep uri) sbn) uri name := by
  intro exports
  induction exports with
  | nil => intro sbn h; exact h
  | cons e es ih =>
    intro sbn h
    rw [List.foldl_cons]
    exact ih _ (removeSymbolsStep_preserves uri name sbn e h)

theorem removeSymbols_fold_establishes (uri : Str) :
    ∀ (exports : List ExportStatement) (sbn : List (Str × List SymbolInfo)),
      ∀ e ∈ exports,
        noUriSymbolsAt (exports.foldl (removeSymbolsStep uri) sbn) uri
          e.symbolName := by
  intro exports
  induction exports with
  | nil => intro sbn e he; simp at he
  | cons e0 es ih =>
    intro sbn e he
    rw [List.foldl_cons]
    rcases List.mem_cons.mp he with he0 | hes
    · subst he0
      exact removeSymbols_fold_preserves uri e.symbolName es _
        (removeSymbolsStep_establishes uri sbn e)
    · exact ih _ e hes

/-- C3 amended: `removeFile(D)` deletes D's module record and D's
per-module symbol list, and removes from the name-to-symbols reverse
map every symbol with D's path stored under the names of D's recorded
exports; but it leaves the wildcard-import map completely unchanged
(it never deletes the record keyed by D), so the wildcard queries for
D can still return symbols of still-indexed modules. -/
theorem remove_file_effect (st : SymbolIndexState) (uri : Str)
    (m : ModuleInfo) (h : mapGet st.modules uri = some m) :
    mapGet (removeFile st uri).modules uri = none ∧
    mapGet (removeFile st uri).symbolsByModule m.name = none ∧
    (∀ e ∈ m.exports, ∀ s ∈ getSymbolsByName (removeFile st uri) e.symbolName,
      s.moduleUri ≠ uri) ∧
    (removeFile st uri).wildcardImportsByDocument =
      st.wildcardImportsByDocument := by
  unfold removeFile
  rw [h]
  refine ⟨?_, ?_, ?_, rfl⟩
  · exact mapGet_mapDelete_self _ _
  · exact mapGet_mapDelete_self _ _
  · intro e he s hs
    exact removeSymbols_fold_establishes uri m.exports st.symbolsByName e he s hs

/-- C3 amended claim at the concrete removal scenario, instantiating
`remove_file_effect`. -/
theorem remove_file_effect_witness :
    mapGet (removeFile idxWithMain (str "main.ahk")).modules (str "main.ahk")
      = none ∧
    mapGet (removeFile idxWithMain (str "main.ahk")).symbolsByModule
      mainModuleInfo.name = none ∧
    (∀ e ∈ mainModuleInfo.exports,
      ∀ s ∈ getSymbolsByName (removeFile idxWithMain (str "main.ahk"))
        e.symbolName, s.moduleUri ≠ str "main.ahk") ∧
    (removeFile idxWithMain (str "main.ahk")).wildcardImportsByDocument =
      idxWithMain.wildcardImportsByDocument :=
  remove_file_effect idxWithMain (str "main.ahk") mainModuleInfo (by decide)

/-- Raw diagnostic with a negative end column, used against C7. -/
def negativeEndColumnDiag : AlphaDiagnostic :=
  { file := str "f.ahk", line := 1, column := 1, endLine := 1, endColumn := -5
    message := str "boom", severity := str "warning", code := none
    extra := none, source := none }

/-- C7 counterexample: a negative `endColumn` is NOT clamped to zero.
`Math.max(0, endColumn - 1)` yields the falsy 0, so the `|| 999`
fallback fires and the converted end character is 999. -/
theorem convert_negative_end_column_not_zero :
    (convertAlphaDiagnostic negativeEndColumnDiag).range.endChar = 999 ∧
    (convertAlphaDiagnostic negativeEndColumnDiag).range.endChar ≠ 0 := by
  decide

theorem clampToNat_nonpos (v : Int) (h : v ≤ 0) : clampToNat v = 0 := by
  unfold clampToNat
  omega

/-- C7 amended: conversion is total (one converted diagnostic per
accepted raw entry, none rejected); negative or zero 1-based positions
are clamped to zero for the start line, start column and end line; an
unmappable severity string is clamped to Error (0), always yielding a
valid severity; but the end column falls back to 999 (not 0) whenever
its clamped value is zero, in particular for every `endColumn ≤ 1`. -/
theorem convert_clamps_and_never_rejects (d : AlphaDiagnostic) :
    (convertAlphaDiagnostic d).range.startLine = clampToNat (d.line - 1) ∧
    (convertAlphaDiagnostic d).range.startChar = clampToNat (d.column - 1) ∧
    (convertAlphaDiagnostic d).range.endLine = clampToNat (d.endLine - 1) ∧
    (d.line ≤ 0 → (convertAlphaDiagnostic d).range.startLine = 0) ∧
    (d.column ≤ 0 → (convertAlphaDiagnostic d).range.startChar = 0) ∧
    (d.endLine ≤ 0 → (convertAlphaDiagnostic d).range.endLine = 0) ∧
    (d.endColumn ≤ 1 → (convertAlphaDiagnostic d).range.endChar = 999) ∧
    (1 < d.endColumn →
      (convertAlphaDiagnostic d).range.endChar = clampToNat (d.endColumn - 1)) ∧
    (convertAlphaDiagnostic d).severity ≤ 3 ∧
    (d.severity ≠ str "error" → d.severity ≠ str "warning" →
      d.severity ≠ str "info" → d.severity ≠ str "hint" →
      (convertAlphaDiagnostic d).severity = 0) := by
  have hend : (convertAlphaDiagnostic d).range.endChar =
      (if clampToNat (d.endColumn - 1) = 0 then 999
       else clampToNat (d.endColumn - 1)) := rfl
  have hsev : (convertAlphaDiagnostic d).severity = toVsCodeSeverity d.severity :=
    rfl
  refine ⟨rfl, rfl, rfl, ?_, ?_, ?_, ?_, ?_, ?_, ?_⟩
  · intro h; exact clampToNat_nonpos _ (by omega)
  · intro h; exact clampToNat_nonpos _ (by omega)
  · intro h; exact clampToNat_nonpos _ (by omega)
  · intro h
    have hz : clampToNat (d.endColumn - 1) = 0 := clampToNat_nonpos _ (by omega)
    rw [hend, if_pos hz]
  · intro h
    have hz : ¬ clampToNat (d.endColumn - 1) = 0 := by
      unfold clampToNat
      omega
    rw [hend, if_neg hz]
  · rw [hsev]
    unfold toVsCodeSeverity
    repeat' split
    all_goals omega
  · intro h1 h2 h3 h4
    rw [hsev]
    unfold toVsCodeSeverity
    rw [if_neg h1, if_neg h2, if_neg h3, if_neg h4]

/-- C7 amended claim instantiated: a raw diagnostic with every position
negative and an unknown severity converts to start (0,0), end line 0,
end character 999 and severity Error. -/
theorem convert_clamps_witness :
    (convertAlphaDiagnostic negativeEndColumnDiag).range.startLine =
      clampToNat ((negativeEndColumnDiag.line : Int) - 1) ∧
    ((negativeEndColumnDiag.endColumn : Int) ≤ 1 →
      (convertAlphaDiagnostic negativeEndColumnDiag).range.endChar = 999) ∧
    (convertAlphaDiagnostic negativeEndColumnDiag).severity ≤ 3 :=
  ⟨(convert_clamps_and_never_rejects negativeEndColumnDiag).1,
   (convert_clamps_and_never_rejects negativeEndColumnDiag).2.2.2.2.2.2.1,
   (convert_clamps_and_never_rejects negativeEndColumnDiag).2.2.2.2.2.2.2.2.1⟩

/-- C4: in an index holding exactly three modules named A, B and C,
where A's sole import targets B, B's targets C and C's targets A
(paths, uris, exported symbols, import kinds and the other index maps
arbitrary), `detectCircularDependencies("A")` returns exactly one
cycle, `[A, B, C, A]`: the path slice from the revisited module's
first occurrence through the repeated node, with no duplicate shorter
cycles. -/
theorem detect_cycles_triangle
    (pA pB pC uA uB uC : Str) (eA eB eC : List ExportStatement)
    (iA iB iC : ImportStatement) (bA bB bC : Bool) (tA tB tC : Nat)
    (sbm sbn : List (Str × List SymbolInfo)) (wi : List (Str × List Str))
    (hA : iA.moduleName = str "B") (hB : iB.moduleName = str "C")
    (hC : iC.moduleName = str "A") :
    detectCircularDependencies
      ⟨[(pA, ⟨uA, str "A", eA, [iA], bA, tA⟩),
        (pB, ⟨uB, str "B", eB, [iB], bB, tB⟩),
        (pC, ⟨uC, str "C", eC, [iC], bC, tC⟩)], sbm, sbn, wi⟩ (str "A")
      = [[str "A", str "B", str "C", str "A"]] := by
  obtain ⟨mnA, tyA, wA, syA, rA⟩ := iA
  obtain ⟨mnB, tyB, wB, syB, rB⟩ := iB
  obtain ⟨mnC, tyC, wC, syC, rC⟩ := iC
  cases hA
  cases hB
  cases hC
  rfl

/-- C4 instantiated at a concrete three-module index. -/
theorem detect_cycles_triangle_witness :
    detectCircularDependencies
      ⟨[(str "a.ahk", ⟨str "a.ahk", str "A", [],
          [⟨str "B", str "named", false, [], ⟨0, 0, 0, 0⟩⟩], true, 0⟩),
        (str "b.ahk", ⟨str "b.ahk", str "B", [],
          [⟨str "C", str "named", false, [], ⟨0, 0, 0, 0⟩⟩], true, 0⟩),
        (str "c.ahk", ⟨str "c.ahk", str "C", [],
          [⟨str "A", str "named", false, [], ⟨0, 0, 0, 0⟩⟩], true, 0⟩)],
       [], [], []⟩ (str "A")
      = [[str "A", str "B", str "C", str "A"]] :=
  detect_cycles_triangle (str "a.ahk") (str "b.ahk") (str "c.ahk")
    (str "a.ahk") (str "b.ahk") (str "c.ahk") [] [] []
    ⟨str "B", str "named", false, [], ⟨0, 0, 0, 0⟩⟩
    ⟨str "C", str "named", false, [], ⟨0, 0, 0, 0⟩⟩
    ⟨str "A", str "named", false, [], ⟨0, 0, 0, 0⟩⟩
    true true true 0 0 0 [] [] [] rfl rfl rfl

theorem aggLE_trans (a b c : AggregatedDiagnostic)
    (h1 : aggLE a b = true) (h2 : aggLE b c = true) : aggLE a c = true := by
  unfold aggLE sortedLE at h1 h2 ⊢
  rw [decide_eq_true_iff] at h1 h2 ⊢
  omega

theorem aggLE_total (a b : AggregatedDiagnostic) :
    (aggLE a b || aggLE b a) = true := by
  unfold aggLE sortedLE
  rcases Nat.lt_trichotomy a.priority b.priority with h | h | h
  · simp [h]
  · rcases Nat.le_total a.diagnostic.range.startLine
      b.diagnostic.range.startLine with hl | hl
    · simp [h, hl]
    · simp [h, hl]
  · simp [h]

theorem getDiagnostics_eq_mergeSort (st : AggregatorState) (uriFsPath : Str) :
    getDiagnostics st uriFsPath =
      (mergedDiagnostics st uriFsPath).mergeSort aggLE := by
  unfold getDiagnostics mergedDiagnostics
  cases mapGet st.diagnostics (normalizeUri uriFsPath) with
  | none => rw [List.mergeSort_nil]
  | some fd => rfl

/-- The `(priorityRank, startLine)` key an aggregated entry is sorted
by. -/
def aggKeyIs (pr ln : Nat) (a : AggregatedDiagnostic) : Bool :=
  decide (a.priority = pr ∧ a.diagnostic.range.startLine = ln)

/-- C5: `getDiagnostics` returns exactly the stored diagnostics of all
producers (a permutation of the merged per-source lists), sorted
ascending by `(priority rank, start line)` — so its priorities are
weakly increasing and at a shared start line the higher-authority
producer's entry comes first — with the fixed ranking
alpha < lsp < static < custom, and entries tied on both rank and line
keep their merge (insertion) order: the sort is stable. -/
theorem get_diagnostics_priority_sorted (st : AggregatorState)
    (uriFsPath : Str) :
    List.Pairwise sortedLE (getDiagnostics st uriFsPath) ∧
    List.Pairwise (fun a b : AggregatedDiagnostic => a.priority ≤ b.priority)
      (getDiagnostics st uriFsPath) ∧
    (getDiagnostics st uriFsPath).Perm (mergedDiagnostics st uriFsPath) ∧
    (∀ pr ln, (getDiagnostics st uriFsPath).filter (aggKeyIs pr ln) =
      (mergedDiagnostics st uriFsPath).filter (aggKeyIs pr ln)) ∧
    (SOURCE_PRIORITY .alpha < SOURCE_PRIORITY .lsp ∧
      SOURCE_PRIORITY .lsp < SOURCE_PRIORITY .staticLint ∧
      SOURCE_PRIORITY .staticLint < SOURCE_PRIORITY .custom) := by
  have hpair : List.Pairwise (fun a b => aggLE a b = true)
      (getDiagnostics st uriFsPath) := by
    rw [getDiagnostics_eq_mergeSort]
    exact List.sorted_mergeSort aggLE_trans aggLE_total _
  refine ⟨?_, ?_, ?_, ?_, by decide⟩
  · exact hpair.imp (fun h => of_decide_eq_true h)
  · refine hpair.imp (fun h => ?_)
    have := of_decide_eq_true h
    unfold sortedLE at this
    omega
  · rw [getDiagnostics_eq_mergeSort]
    exact List.mergeSort_perm _ _
  · intro pr ln
    have hkey : ∀ a b : AggregatedDiagnostic, aggKeyIs pr ln a = true →
        aggKeyIs pr ln b = true → aggLE a b = true := by
      intro a b ha hb
      unfold aggKeyIs at ha hb
      rw [decide_eq_true_iff] at ha hb
      unfold aggLE sortedLE
      rw [decide_eq_true_iff]
      omega
    have hfilter : ((mergedDiagnostics st uriFsPath).filter
        (aggKeyIs pr ln)).Pairwise (fun a b => aggLE a b = true) := by
      apply List.pairwise_of_forall_mem_list
      intro a ha b hb
      exact hkey a b (List.of_mem_filter ha) (List.of_mem_filter hb)
    have hsub : ((mergedDiagnostics st uriFsPath).filter (aggKeyIs pr ln)).Sublist
        ((mergedDiagnostics st uriFsPath).mergeSort aggLE) :=
      List.sublist_mergeSort aggLE_trans aggLE_total hfilter
        (List.filter_sublist _)
    have hsub2 : ((mergedDiagnostics st uriFsPath).filter (aggKeyIs pr ln)).Sublist
        (((mergedDiagnostics st uriFsPath).mergeSort aggLE).filter
          (aggKeyIs pr ln)) := by
      have := List.Sublist.filter (aggKeyIs pr ln) hsub
      rwa [List.filter_eq_self.mpr (fun a ha => List.of_mem_filter ha)] at this
    have hperm : (((mergedDiagnostics st uriFsPath).mergeSort aggLE).filter
        (aggKeyIs pr ln)).Perm
        ((mergedDiagnostics st uriFsPath).filter (aggKeyIs pr ln)) :=
      (List.mergeSort_perm _ _).filter _
    rw [getDiagnostics_eq_mergeSort]
    exact (hsub2.eq_of_length hperm.length_eq.symm).symm

theorem dedupFold_nil (seen : List (Str × Diagnostic)) :
    dedupFold seen [] = seen := rfl

theorem dedupFold_cons (seen : List (Str × Diagnostic))
    (a : AggregatedDiagnostic) (l : List AggregatedDiagnostic) :
    dedupFold seen (a :: l) =
      (if mapHas seen (diagnosticKey a.diagnostic) then dedupFold seen l
       else dedupFold (seen ++ [(diagnosticKey a.diagnostic, a.diagnostic)]) l) := by
  unfold dedupFold
  rw [List.foldl_cons]
  by_cases h : mapHas seen (diagnosticKey a.diagnostic)
  · simp only [h, if_true]
  · simp only [h, Bool.false_eq_true, if_false]

theorem mapHas_append {α β : Type} [DecidableEq α]
    (m m' : List (α × β)) (k : α) :
    mapHas (m ++ m') k = (mapHas m k || mapHas m' k) := by
  unfold mapHas
  rw [mapGet_append]
  cases mapGet m k <;> cases mapGet m' k <;> rfl

theorem mem_of_mapHas {α β : Type} [DecidableEq α]
    (m : List (α × β)) (k : α) (h : mapHas m k = true) :
    ∃ v, (k, v) ∈ m := by
  induction m with
  | nil => simp [mapHas, mapGet] at h
  | cons p rest ih =>
    obtain ⟨k', v⟩ := p
    by_cases hk : k' = k
    · subst hk
      exact ⟨v, List.mem_cons_self _ _⟩
    · unfold mapHas at h
      rw [mapGet, if_neg hk] at h
      obtain ⟨w, hw⟩ := ih h
      exact ⟨w, List.mem_cons_of_mem _ hw⟩

theorem singleton_mapHas {α β : Type} [DecidableEq α] (k k' : α) (v : β) :
    mapHas [(k, v)] k' = true → k = k' := by
  intro h
  unfold mapHas at h
  rw [mapGet] at h
  by_cases hk : k = k'
  · exact hk
  · rw [if_neg hk] at h; simp [mapGet] at h

theorem mapHas_of_mem_keys {α β : Type} [DecidableEq α]
    (m : List (α × β)) (k : α) (h : k ∈ m.map Prod.fst) :
    mapHas m k = true := by
  induction m with
  | nil => simp at h
  | cons p rest ih =>
    obtain ⟨k', v⟩ := p
    rw [List.map_cons] at h
    unfold mapHas
    rw [mapGet]
    rcases List.mem_cons.mp h with h1 | h1
    · rw [if_pos h1.symm]
      rfl
    · by_cases hk : k' = k
      · rw [if_pos hk]; rfl
      · rw [if_neg hk]
        exact ih h1

theorem dedupFold_prefix (l : List AggregatedDiagnostic) :
    ∀ seen : List (Str × Diagnostic), ∃ t, dedupFold seen l = seen ++ t := by
  induction l with
  | nil => intro seen; exact ⟨[], by rw [dedupFold_nil, List.append_nil]⟩
  | cons a l ih =>
    intro seen
    rw [dedupFold_cons]
    by_cases h : mapHas seen (diagnosticKey a.diagnostic)
    · rw [if_pos h]; exact ih seen
    · rw [if_neg h]
      obtain ⟨t, ht⟩ := ih (seen ++ [(diagnosticKey a.diagnostic, a.diagnostic)])
      exact ⟨(diagnosticKey a.diagnostic, a.diagnostic) :: t, by
        rw [ht, List.append_assoc]; rfl⟩

theorem dedupFold_key_correct (l : List AggregatedDiagnostic) :
    ∀ seen : List (Str × Diagnostic),
      (∀ p ∈ seen, p.1 = diagnosticKey p.2) →
      ∀ p ∈ dedupFold seen l, p.1 = diagnosticKey p.2 := by
  induction l with
  | nil => intro seen h; exact h
  | cons a l ih =>
    intro seen h
    rw [dedupFold_cons]
    by_cases hh : mapHas seen (diagnosticKey a.diagnostic)
    · rw [if_pos hh]; exact ih seen h
    · rw [if_neg hh]
      apply ih
      intro p hp
      rcases List.mem_append.mp hp with hp | hp
      · exact h p hp
      · rcases List.mem_singleton.mp hp with rfl
        rfl

theorem dedupFold_keys_nodup (l : List AggregatedDiagnostic) :
    ∀ seen : List (Str × Diagnostic),
      (seen.map Prod.fst).Nodup →
      ((dedupFold seen l).map Prod.fst).Nodup := by
  induction l with
  | nil => intro seen h; exact h
  | cons a l ih =>
    intro seen h
    rw [dedupFold_cons]
    by_cases hh : mapHas seen (diagnosticKey a.diagnostic)
    · rw [if_pos hh]; exact ih seen h
    · rw [if_neg hh]
      apply ih
      rw [List.map_append, List.map_singleton]
      rw [List.nodup_append]
      refine ⟨h, List.nodup_singleton _, ?_⟩
      intro k hk hk'
      rcases List.mem_singleton.mp hk' with rfl
      exact hh (mapHas_of_mem_keys seen _ hk)

theorem dedupFold_covers (l : List AggregatedDiagnostic) :
    ∀ seen : List (Str × Diagnostic), ∀ a ∈ l,
      ∃ p ∈ dedupFold seen l, p.1 = diagnosticKey a.diagnostic := by
  induction l with
  | nil => intro seen a ha; simp at ha
  | cons b l ih =>
    intro seen a ha
    rw [dedupFold_cons]
    by_cases hh : mapHas seen (diagnosticKey b.diagnostic)
    · rw [if_pos hh]
      rcases List.mem_cons.mp ha with rfl | ha
      · obtain ⟨v, hv⟩ := mem_of_mapHas seen _ hh
        obtain ⟨t, ht⟩ := dedupFold_prefix l seen
        exact ⟨(diagnosticKey a.diagnostic, v), by
          rw [ht]; exact List.mem_append_left _ hv, rfl⟩
      · exact ih seen a ha
    · rw [if_neg hh]
      rcases List.mem_cons.mp ha with rfl | ha
      · obtain ⟨t, ht⟩ := dedupFold_prefix l
          (seen ++ [(diagnosticKey a.diagnostic, a.diagnostic)])
        refine ⟨(diagnosticKey a.diagnostic, a.diagnostic), ?_, rfl⟩
        rw [ht]
        exact List.mem_append_left _ (List.mem_append_right _ (List.mem_singleton_self _))
      · exact ih _ a ha

theorem dedupFold_first_occurrence (l : List AggregatedDiagnostic) :
    ∀ seen : List (Str × Diagnostic), ∀ p ∈ dedupFold seen l,
      p ∈ seen ∨
      (mapHas seen p.1 = false ∧
        ∃ l1 a l2, l = l1 ++ a :: l2 ∧ a.diagnostic = p.2 ∧
          diagnosticKey a.diagnostic = p.1 ∧
          ∀ x ∈ l1, diagnosticKey x.diagnostic ≠ p.1) := by
  induction l with
  | nil => intro seen p hp; exact Or.inl hp
  | cons a l ih =>
    intro seen p hp
    rw [dedupFold_cons] at hp
    by_cases hh : mapHas seen (diagnosticKey a.diagnostic)
    · rw [if_pos hh] at hp
      rcases ih seen p hp with hseen | ⟨hhas, l1, b, l2, hsplit, hdiag, hkey, hfirst⟩
      · exact Or.inl hseen
      · refine Or.inr ⟨hhas, a :: l1, b, l2, by rw [hsplit]; rfl, hdiag, hkey, ?_⟩
        intro x hx
        rcases List.mem_cons.mp hx with rfl | hx
        · intro hc
          rw [hc] at hh
          rw [hh] at hhas
          exact Bool.noConfusion hhas
        · exact hfirst x hx
    · rw [if_neg hh] at hp
      rcases ih _ p hp with hseen | ⟨hhas, l1, b, l2, hsplit, hdiag, hkey, hfirst⟩
      · rcases List.mem_append.mp hseen with hseen | hnew
        · exact Or.inl hseen
        · rcases List.mem_singleton.mp hnew with rfl
          refine Or.inr ⟨Bool.of_not_eq_true hh, [], a, l, rfl, rfl, rfl, ?_⟩
          intro x hx
          simp at hx
      · rw [mapHas_append, Bool.or_eq_false_iff] at hhas
        obtain ⟨hhas1, hhas2⟩ := hhas
        refine Or.inr ⟨hhas1, a :: l1, b, l2, by rw [hsplit]; rfl, hdiag, hkey, ?_⟩
        intro x hx
        rcases List.mem_cons.mp hx with rfl | hx
        · intro hc
          have : mapHas [(diagnosticKey x.diagnostic, x.diagnostic)] p.1 = true := by
            rw [hc]
            unfold mapHas
            rw [mapGet, if_pos rfl]
            rfl
          rw [this] at hhas2
          exact Bool.noConfusion hhas2
        · exact hfirst x hx

theorem diagnosticKey_congr (d1 d2 : Diagnostic)
    (h1 : d1.range.startLine = d2.range.startLine)
    (h2 : d1.range.startChar = d2.range.startChar)
    (h3 : d1.message.take 50 = d2.message.take 50) :
    diagnosticKey d1 = diagnosticKey d2 := by
  unfold diagnosticKey
  rw [h1, h2, h3]

/-- C6: `getDeduplicatedDiagnostics` performs the same merge as
`getDiagnostics` and collapses every group of entries sharing the
`(start line, start column, first 50 characters of message)` key into
one entry: the result carries pairwise distinct keys (so two
diagnostics with identical keys from different producers cannot both
survive), every aggregated entry's key is represented, each kept entry
is the first entry with its key in the `getDiagnostics` order, and the
kept entry's priority is not above any same-key entry's priority. -/
theorem deduplication_collapses_by_key (st : AggregatorState)
    (uriFsPath : Str) :
    (getDeduplicatedDiagnostics st uriFsPath).Pairwise
      (fun d1 d2 => diagnosticKey d1 ≠ diagnosticKey d2) ∧
    (getDeduplicatedDiagnostics st uriFsPath).Pairwise
      (fun d1 d2 => ¬(d1.range.startLine = d2.range.startLine ∧
        d1.range.startChar = d2.range.startChar ∧
        d1.message.take 50 = d2.message.take 50)) ∧
    (∀ a ∈ getDiagnostics st uriFsPath,
      ∃ e ∈ getDeduplicatedDiagnostics st uriFsPath,
        diagnosticKey e = diagnosticKey a.diagnostic) ∧
    (∀ e ∈ getDeduplicatedDiagnostics st uriFsPath,
      ∃ l1 a l2, getDiagnostics st uriFsPath = l1 ++ a :: l2 ∧
        a.diagnostic = e ∧
        ∀ x ∈ l1, diagnosticKey x.diagnostic ≠ diagnosticKey e) ∧
    (∀ e ∈ getDeduplicatedDiagnostics st uriFsPath,
      ∀ x ∈ getDiagnostics st uriFsPath,
        diagnosticKey x.diagnostic = diagnosticKey e →
        ∃ b ∈ getDiagnostics st uriFsPath,
          b.diagnostic = e ∧ b.priority ≤ x.priority) := by
  have hcorrect : ∀ p ∈ dedupFold [] (getDiagnostics st uriFsPath),
      p.1 = diagnosticKey p.2 :=
    dedupFold_key_correct _ [] (by intro p hp; simp at hp)
  have hpairfst : (dedupFold [] (getDiagnostics st uriFsPath)).Pairwise
      (fun p q => p.1 ≠ q.1) := by
    have := dedupFold_keys_nodup (getDiagnostics st uriFsPath) [] (by simp)
    rwa [List.Nodup, List.pairwise_map] at this
  have hkeysnd : (dedupFold [] (getDiagnostics st uriFsPath)).Pairwise
      (fun p q => diagnosticKey p.2 ≠ diagnosticKey q.2) := by
    refine hpairfst.imp_of_mem ?_
    intro p q hp hq h
    rw [← hcorrect p hp, ← hcorrect q hq]
    exact h
  have hdistinct : (getDeduplicatedDiagnostics st uriFsPath).Pairwise
      (fun d1 d2 => diagnosticKey d1 ≠ diagnosticKey d2) := by
    unfold getDeduplicatedDiagnostics
    rw [List.pairwise_map]
    exact hkeysnd
  have hfirstocc : ∀ e ∈ getDeduplicatedDiagnostics st uriFsPath,
      ∃ l1 a l2, getDiagnostics st uriFsPath = l1 ++ a :: l2 ∧
        a.diagnostic = e ∧
        ∀ x ∈ l1, diagnosticKey x.diagnostic ≠ diagnosticKey e := by
    intro e he
    unfold getDeduplicatedDiagnostics at he
    obtain ⟨p, hp, hpe⟩ := List.mem_map.mp he
    rcases dedupFold_first_occurrence _ [] p hp with hmem | hocc
    · simp at hmem
    · obtain ⟨_, l1, a, l2, hsplit, hdiag, hkeya, hfirst⟩ := hocc
      refine ⟨l1, a, l2, hsplit, by rw [hdiag, hpe], ?_⟩
      intro x hx
      have hpkey : p.1 = diagnosticKey e := by
        rw [hcorrect p hp, hpe]
      rw [← hpkey]
      exact hfirst x hx
  refine ⟨hdistinct, ?_, ?_, hfirstocc, ?_⟩
  · refine hdistinct.imp ?_
    intro d1 d2 h hc
    exact h (diagnosticKey_congr d1 d2 hc.1 hc.2.1 hc.2.2)
  · intro a ha
    obtain ⟨p, hp, hkey⟩ := dedupFold_covers _ [] a ha
    refine ⟨p.2, List.mem_map.mpr ⟨p, hp, rfl⟩, ?_⟩
    rw [← hcorrect p hp]
    exact hkey
  · intro e he x hx hxkey
    obtain ⟨l1, a, l2, hsplit, hdiag, hfirst⟩ := hfirstocc e he
    have hLE : (getDiagnostics st uriFsPath).Pairwise
        (fun a b => aggLE a b = true) := by
      rw [getDiagnostics_eq_mergeSort]
      exact List.sorted_mergeSort aggLE_trans aggLE_total _
    have hamem : a ∈ getDiagnostics st uriFsPath := by
      rw [hsplit]
      exact List.mem_append_right _ (List.mem_cons_self _ _)
    refine ⟨a, hamem, hdiag, ?_⟩
    rw [hsplit] at hx
    rcases List.mem_append.mp hx with hx1 | hx2
    · exact absurd hxkey (hfirst x hx1)
    · rcases List.mem_cons.mp hx2 with rfl | hx3
      · exact Nat.le_refl _
      · have hsubpair : (a :: l2).Pairwise (fun a b => aggLE a b = true) := by
          refine List.Pairwise.sublist ?_ hLE
          rw [hsplit]
          exact List.sublist_append_right _ _
        have := List.rel_of_pairwise_cons hsubpair hx3
        have hle := of_decide_eq_true this
        unfold sortedLE at hle
        omega

/-- C9: a raw diagnostic whose normalized file path differs from the
target uri's is silently discarded by `setAlphaDiagnostics` — deleting
it from the submitted batch yields the identical aggregator state, so
it is stored neither under the uri nor anywhere else; what is stored
under `(uri, alpha)` is exactly the conversion of the path-matching,
suppression-surviving entries; and no other file's entry changes. -/
theorem alpha_path_mismatch_discarded (pathNormalize : Str → Str)
    (idx : SymbolIndexState) (st : AggregatorState) (uriFsPath : Str) :
    (∀ (l1 l2 : List AlphaDiagnostic) (d : AlphaDiagnostic),
      normalizeFilePath pathNormalize d.file ≠
        normalizeFilePath pathNormalize uriFsPath →
      setAlphaDiagnostics pathNormalize idx st uriFsPath (l1 ++ d :: l2) =
        setAlphaDiagnostics pathNormalize idx st uriFsPath (l1 ++ l2)) ∧
    (∀ raws : List AlphaDiagnostic,
      getDiagnosticsFromSource
        (setAlphaDiagnostics pathNormalize idx st uriFsPath raws) uriFsPath
        .alpha =
      ((raws.filter (fun d => decide (normalizeFilePath pathNormalize d.file =
          normalizeFilePath pathNormalize uriFsPath))).filter (fun d =>
          !isWildcardImportSymbolWarning idx uriFsPath d)).map
        convertAlphaDiagnostic) ∧
    (∀ (raws : List AlphaDiagnostic) (key : Str),
      key ≠ normalizeUri uriFsPath →
      mapGet (setAlphaDiagnostics pathNormalize idx st uriFsPath
        raws).diagnostics key = mapGet st.diagnostics key) := by
  refine ⟨?_, ?_, ?_⟩
  · intro l1 l2 d hmm
    unfold setAlphaDiagnostics
    have hfd : (decide (normalizeFilePath pathNormalize d.file =
        normalizeFilePath pathNormalize uriFsPath)) = false := by
      exact decide_eq_false hmm
    rw [List.filter_append, List.filter_append, List.filter_cons, hfd]
    simp only [Bool.false_eq_true, if_false]
    rw [← List.filter_append, ← List.filter_append]
  · intro raws
    unfold setAlphaDiagnostics setDiagnostics getDiagnosticsFromSource
    unfold mapGetD
    rw [mapGet_mapSet_self]
    simp only [Option.getD_some]
    rw [mapGet_mapSet_self]
    rfl
  · intro raws key hkey
    unfold setAlphaDiagnostics setDiagnostics
    exact mapGet_mapSet_ne _ _ _ _ hkey

/-- Concrete raw diagnostic for another file, used to instantiate the
C9 theorem. -/
def otherFileDiag : AlphaDiagnostic :=
  { file := str "other.ahk", line := 1, column := 1, endLine := 1
    endColumn := 2, message := str "msg", severity := str "error"
    code := none, extra := none, source := none }

/-- C9 instantiated: with the identity path normalizer, submitting a
batch holding only a diagnostic for `other.ahk` to `main.ahk` equals
submitting the empty batch, and an unrelated key is untouched. -/
theorem alpha_path_mismatch_discarded_witness :
    setAlphaDiagnostics id emptyIndex emptyAggregator (str "main.ahk")
        ([] ++ otherFileDiag :: []) =
      setAlphaDiagnostics id emptyIndex emptyAggregator (str "main.ahk")
        ([] ++ []) ∧
    mapGet (setAlphaDiagnostics id emptyIndex emptyAggregator (str "main.ahk")
        [otherFileDiag]).diagnostics (str "zzz.ahk") =
      mapGet emptyAggregator.diagnostics (str "zzz.ahk") :=
  ⟨(alpha_path_mismatch_discarded id emptyIndex emptyAggregator
      (str "main.ahk")).1 [] [] otherFileDiag (by decide),
   (alpha_path_mismatch_discarded id emptyIndex emptyAggregator
      (str "main.ahk")).2.2 [otherFileDiag] (str "zzz.ahk") (by decide)⟩

theorem containsSub_append (needle pre post : Str) :
    containsSub needle (pre ++ (needle ++ post)) = true := by
  induction pre with
  | nil =>
    rw [List.nil_append]
    cases hn : needle ++ post with
    | nil =>
      have : needle = [] := by
        cases needle with
        | nil => rfl
        | cons c cs => exact List.noConfusion hn
      rw [this]
      rfl
    | cons c rest =>
      rw [containsSub, ← hn]
      rw [List.isPrefixOf_iff_prefix.mpr (List.prefix_append _ _)]
      rfl
  | cons c pre ih =>
    rw [List.cons_append, containsSub, ih]
    rw [Bool.or_true]

theorem takeWhile_all_append (p : Char → Bool) (n : Str) (y : Char)
    (rest : Str) (hall : ∀ c ∈ n, p c = true) (hy : p y = false) :
    (n ++ y :: rest).takeWhile p = n ∧
    (n ++ y :: rest).dropWhile p = y :: rest := by
  induction n with
  | nil =>
    rw [List.nil_append, List.takeWhile_cons, List.dropWhile_cons, hy]
    exact ⟨rfl, rfl⟩
  | cons c n ih =>
    have hc : p c = true := hall c (List.mem_cons_self _ _)
    have hrest : ∀ x ∈ n, p x = true :=
      fun x hx => hall x (List.mem_cons_of_mem _ hx)
    obtain ⟨ht, hd⟩ := ih hrest
    rw [List.cons_append, List.takeWhile_cons, List.dropWhile_cons, hc]
    simp only [if_true]
    exact ⟨by rw [ht], by rw [hd]⟩

theorem matchVariablePattern_exact (n tail : Str) (hne : n ≠ [])
    (hword : ∀ c ∈ n, isWordChar c = true)
    (htail : isWordChar quoteChar = false) :
    matchVariablePattern
      ((str "Variable " ++ [quoteChar]) ++ (n ++ quoteChar :: tail)) =
      some n := by
  unfold matchVariablePattern
  dsimp only
  rw [List.isPrefixOf_iff_prefix.mpr (List.prefix_append _ _)]
  simp only [if_true]
  rw [List.drop_left]
  obtain ⟨ht, hd⟩ := takeWhile_all_append isWordChar n quoteChar tail hword htail
  rw [ht, hd]
  rw [if_pos ⟨hne, rfl⟩]

theorem extractVariableName_head (s : Str) (w : Str) (hne : s ≠ [])
    (h : matchVariablePattern s = some w) : extractVariableName s = some w := by
  cases s with
  | nil => exact absurd rfl hne
  | cons c rest =>
    rw [extractVariableName, h]

/-- The full warning message the suppression rule matches, for subject
name `n`. -/
def neverAssignedMessage (n : Str) : Str :=
  str "Variable " ++ quoteChar :: (n ++ quoteChar ::
    str " appears to never be assigned")

theorem isWildcardImportSymbolWarning_eq (idx : SymbolIndexState)
    (uriFsPath n : Str) (hne : n ≠ [])
    (hword : ∀ c ∈ n, isWordChar c = true) (d : AlphaDiagnostic)
    (hmsg : d.message = neverAssignedMessage n) :
    isWildcardImportSymbolWarning idx uriFsPath d =
      isSymbolFromWildcardImport idx uriFsPath n := by
  have hshape : d.message =
      (str "Variable " ++ [quoteChar]) ++
        (n ++ quoteChar :: (str " appears to never be assigned")) := by
    rw [hmsg]
    unfold neverAssignedMessage
    rw [List.append_assoc]
    rfl
  have hcontains : containsSub (str "appears to never be assigned")
      d.message = true := by
    rw [hmsg]
    have hsplit : neverAssignedMessage n =
        ((str "Variable " ++ quoteChar :: n) ++ [quoteChar, Char.ofNat 32]) ++
          (str "appears to never be assigned" ++ []) := by
      unfold neverAssignedMessage
      rw [List.append_nil, List.append_assoc, List.append_assoc]
      have : (str " appears to never be assigned") =
          Char.ofNat 32 :: str "appears to never be assigned" := by decide
      rw [this]
      rfl
    rw [hsplit]
    exact containsSub_append _ _ _
  have hextract : extractVariableName d.message = some n := by
    rw [hshape]
    apply extractVariableName_head
    · intro hc
      have : ((str "Variable " ++ [quoteChar]) : Str) = [] :=
        List.append_eq_nil.mp hc |>.1
      revert this
      decide
    · exact matchVariablePattern_exact n _ hne hword (by decide)
  unfold isWildcardImportSymbolWarning
  rw [hcontains]
  simp only [Bool.not_true, Bool.false_eq_true, if_false]
  rw [hextract]

/-- C2: starting from an empty aggregator, submitting through the
runtime-source adapter a raw diagnostic for D whose message is
`Variable 'N' appears to never be assigned` (N a nonempty word) and
whose path matches D: if N is resolvable through D's wildcard imports
the diagnostic is suppressed — nothing is stored and `getDiagnostics(D)`
is empty — while if no wildcard-imported module exports N the
otherwise-identical diagnostic is retained and `getDiagnostics(D)`
holds exactly its conversion. -/
theorem wildcard_suppression (pathNormalize : Str → Str)
    (idx : SymbolIndexState) (uriFsPath n : Str) (hne : n ≠ [])
    (hword : ∀ c ∈ n, isWordChar c = true) (d : AlphaDiagnostic)
    (hmsg : d.message = neverAssignedMessage n)
    (hfile : normalizeFilePath pathNormalize d.file =
      normalizeFilePath pathNormalize uriFsPath) :
    (isSymbolFromWildcardImport idx uriFsPath n = true →
      getDiagnostics (setAlphaDiagnostics pathNormalize idx emptyAggregator
        uriFsPath [d]) uriFsPath = []) ∧
    (isSymbolFromWildcardImport idx uriFsPath n = false →
      getDiagnostics (setAlphaDiagnostics pathNormalize idx emptyAggregator
        uriFsPath [d]) uriFsPath =
      [{ diagnostic := convertAlphaDiagnostic d, source := .alpha
         priority := SOURCE_PRIORITY .alpha }]) := by
  have hwarn : isWildcardImportSymbolWarning idx uriFsPath d =
      isSymbolFromWildcardImport idx uriFsPath n :=
    isWildcardImportSymbolWarning_eq idx uriFsPath n hne hword d hmsg
  have hpath : ([d].filter (fun d =>
      decide (normalizeFilePath pathNormalize d.file =
        normalizeFilePath pathNormalize uriFsPath))) = [d] := by
    rw [List.filter_cons, decide_eq_true hfile]
    rfl
  constructor
  · intro hsupp
    have hds : (([d].filter (fun d =>
        decide (normalizeFilePath pathNormalize d.file =
          normalizeFilePath pathNormalize uriFsPath))).filter (fun d =>
        !isWildcardImportSymbolWarning idx uriFsPath d)) = [] := by
      rw [hpath, List.filter_cons, hwarn, hsupp]
      rfl
    unfold setAlphaDiagnostics
    rw [hds]
    unfold setDiagnostics getDiagnostics
    rw [mapGet_mapSet_self]
    show List.mergeSort [] aggLE = []
    exact List.mergeSort_nil
  · intro hkeep
    have hds : (([d].filter (fun d =>
        decide (normalizeFilePath pathNormalize d.file =
          normalizeFilePath pathNormalize uriFsPath))).filter (fun d =>
        !isWildcardImportSymbolWarning idx uriFsPath d)) = [d] := by
      rw [hpath, List.filter_cons, hwarn, hkeep]
      rfl
    unfold setAlphaDiagnostics
    rw [hds]
    unfold setDiagnostics getDiagnostics
    rw [mapGet_mapSet_self]
    show List.mergeSort
      [{ diagnostic := convertAlphaDiagnostic d, source := .alpha
         priority := SOURCE_PRIORITY .alpha }] aggLE = _
    exact List.mergeSort_singleton _

/-- Raw runtime warning about `Sum` for `main.ahk`. -/
def sumWarningDiag : AlphaDiagnostic :=
  { file := str "main.ahk", line := 3, column := 1, endLine := 3
    endColumn := 4, message := neverAssignedMessage (str "Sum")
    severity := str "warning", code := none, extra := none, source := none }

/-- Raw runtime warning about `Nope` (exported by no module) for
`main.ahk`. -/
def nopeWarningDiag : AlphaDiagnostic :=
  { file := str "main.ahk", line := 3, column := 1, endLine := 3
    endColumn := 4, message := neverAssignedMessage (str "Nope")
    severity := str "warning", code := none, extra := none, source := none }

/-- C2 instantiated on the index where `main.ahk` wildcard-imports
`ArrayHelpers` (exporting `Sum`): the `Sum` warning is suppressed, the
`Nope` warning is retained. -/
theorem wildcard_suppression_witness :
    getDiagnostics (setAlphaDiagnostics id idxWithMain emptyAggregator
      (str "main.ahk") [sumWarningDiag]) (str "main.ahk") = [] ∧
    getDiagnostics (setAlphaDiagnostics id idxWithMain emptyAggregator
      (str "main.ahk") [nopeWarningDiag]) (str "main.ahk") =
    [{ diagnostic := convertAlphaDiagnostic nopeWarningDiag, source := .alpha
       priority := SOURCE_PRIORITY .alpha }] :=
  ⟨(wildcard_suppression id idxWithMain (str "main.ahk") (str "Sum")
      (by decide) (by decide) sumWarningDiag rfl rfl).1 (by decide),
   (wildcard_suppression id idxWithMain (str "main.ahk") (str "Nope")
      (by decide) (by decide) nopeWarningDiag rfl rfl).2 (by decide)⟩

/-- The decision `getUnusedImports` makes for one import statement. -/
def unusedImportPred (text : Str) (imp : ImportStatement) : Bool :=
  if imp.isWildcard then false
  else if imp.type = str "default" then
    !hasModuleDotAccess imp.moduleName false text
  else if imp.type = str "named" then namedImportUnused text imp
  else false

theorem getUnusedImports_step (text : Str) (unused : List ImportStatement)
    (imp : ImportStatement) :
    (if imp.isWildcard then unused
     else if imp.type = str "default" then
       if !hasModuleDotAccess imp.moduleName false text then unused ++ [imp]
       else unused
     else if imp.type = str "named" then
       if namedImportUnused text imp then unused ++ [imp] else unused
     else unused) =
    (if unusedImportPred text imp then unused ++ [imp] else unused) := by
  unfold unusedImportPred
  by_cases hw : imp.isWildcard
  · rw [if_pos hw, if_pos hw]
    simp
  · rw [if_neg hw, if_neg hw]
    by_cases hd : imp.type = str "default"
    · rw [if_pos hd, if_pos hd]
    · rw [if_neg hd, if_neg hd]
      by_cases hn : imp.type = str "named"
      · rw [if_pos hn, if_pos hn]
      · rw [if_neg hn, if_neg hn]
        simp

theorem getUnusedImports_foldl (text : Str) :
    ∀ (imports : List ImportStatement) (acc : List ImportStatement),
      imports.foldl
        (fun unused imp =>
          if imp.isWildcard then unused
          else if imp.type = str "default" then
            if !hasModuleDotAccess imp.moduleName false text then unused ++ [imp]
            else unused
          else if imp.type = str "named" then
            if namedImportUnused text imp then unused ++ [imp] else unused
          else unused)
        acc = acc ++ imports.filter (unusedImportPred text) := by
  intro imports
  induction imports with
  | nil => intro acc; rw [List.foldl_nil, List.filter_nil, List.append_nil]
  | cons imp rest ih =>
    intro acc
    rw [List.foldl_cons, getUnusedImports_step, List.filter_cons]
    by_cases hp : unusedImportPred text imp
    · rw [if_pos hp, hp, if_pos rfl, ih, List.append_assoc]
      rfl
    · rw [if_neg hp, Bool.eq_false_iff.mpr hp]
      simp only [Bool.false_eq_true, if_false]
      exact ih acc

theorem getUnusedImports_eq_filter (imports : List ImportStatement)
    (text : Str) :
    getUnusedImports imports text = imports.filter (unusedImportPred text) := by
  unfold getUnusedImports
  rw [getUnusedImports_foldl]
  rfl

/-- C8: `getUnusedImports` never reports a wildcard import; a
named import with the single symbol `s` (alias preferred over name)
is reported when that name occurs exactly once in the document text
(the import line itself) and not reported as soon as it occurs a
second time anywhere; and a default import is reported exactly when no
`moduleName.` access pattern (word boundary, module name, dot) occurs
anywhere in the text. -/
theorem unused_imports_heuristic (imports : List ImportStatement)
    (text : Str) :
    (∀ imp ∈ getUnusedImports imports text, imp.isWildcard = false) ∧
    (∀ imp ∈ imports, imp.isWildcard = false → imp.type = str "named" →
      ∀ s : ImportSymbol, imp.symbols = [s] →
        ((countOcc text (effectiveName s) = 1 →
            imp ∈ getUnusedImports imports text) ∧
         (2 ≤ countOcc text (effectiveName s) →
            imp ∉ getUnusedImports imports text))) ∧
    (∀ imp ∈ imports, imp.isWildcard = false → imp.type = str "default" →
      (imp ∈ getUnusedImports imports text ↔
        hasModuleDotAccess imp.moduleName false text = false)) := by
  have hnamed_ne : (str "named" : Str) ≠ str "default" := by decide
  refine ⟨?_, ?_, ?_⟩
  · intro imp himp
    rw [getUnusedImports_eq_filter] at himp
    have hp := List.of_mem_filter himp
    by_cases hw : imp.isWildcard
    · unfold unusedImportPred at hp
      rw [if_pos hw] at hp
      exact Bool.noConfusion hp
    · exact Bool.eq_false_iff.mpr hw
  · intro imp himp hw htype s hsym
    have hpred : unusedImportPred text imp = namedImportUnused text imp := by
      unfold unusedImportPred
      rw [hw]
      simp only [Bool.false_eq_true, if_false]
      rw [if_neg (by rw [htype]; exact hnamed_ne), if_pos htype]
    have hall : namedImportUnused text imp =
        decide (countOcc text (effectiveName s) ≤ 1) := by
      unfold namedImportUnused
      rw [hsym]
      rw [List.all_cons, List.all_nil, Bool.and_true]
    constructor
    · intro hone
      rw [getUnusedImports_eq_filter]
      apply List.mem_filter.mpr
      refine ⟨himp, ?_⟩
      rw [hpred, hall]
      exact decide_eq_true (by omega)
    · intro htwo
      rw [getUnusedImports_eq_filter]
      intro hmem
      have hp := List.of_mem_filter hmem
      rw [hpred, hall] at hp
      have := of_decide_eq_true hp
      omega
  · intro imp himp hw htype
    have hpred : unusedImportPred text imp =
        !hasModuleDotAccess imp.moduleName false text := by
      unfold unusedImportPred
      rw [hw]
      simp only [Bool.false_eq_true, if_false]
      rw [if_pos htype]
    rw [getUnusedImports_eq_filter]
    constructor
    · intro hmem
      have hp := List.of_mem_filter hmem
      rw [hpred] at hp
      simpa using hp
    · intro hdot
      apply List.mem_filter.mpr
      refine ⟨himp, ?_⟩
      rw [hpred, hdot]
      rfl

/-- Named import of `Sum` from `ArrayHelpers`. -/
def namedSumImport : ImportStatement :=
  { moduleName := str "ArrayHelpers", type := str "named", isWildcard := false
    symbols := [{ name := str "Sum", aliasName := none }]
    range := ⟨0, 0, 0, 0⟩ }

/-- Default import of module `Rep`. -/
def defaultRepImport : ImportStatement :=
  { moduleName := str "Rep", type := str "default", isWildcard := false
    symbols := [], range := ⟨1, 0, 1, 0⟩ }

/-- Document text mentioning `Sum` exactly once (its import line) and
never accessing `Rep.`. -/
def docText : Str := str "import Sum from ArrayHelpers"

/-- C8 instantiated: in `docText` the named import of `Sum` (occurring
once) and the default import of `Rep` (no `Rep.` access) are both
reported. -/
theorem unused_imports_heuristic_witness :
    namedSumImport ∈ getUnusedImports [namedSumImport, defaultRepImport]
      docText ∧
    (defaultRepImport ∈ getUnusedImports [namedSumImport, defaultRepImport]
        docText ↔
      hasModuleDotAccess defaultRepImport.moduleName false docText = false) ∧
    namedSumImport.isWildcard = false :=
  ⟨((unused_imports_heuristic [namedSumImport, defaultRepImport] docText).2.1
      namedSumImport (by decide) rfl rfl
      { name := str "Sum", aliasName := none } rfl).1 (by decide),
   (unused_imports_heuristic [namedSumImport, defaultRepImport] docText).2.2
      defaultRepImport (by decide) rfl rfl,
   (unused_imports_heuristic [namedSumImport, defaultRepImport] docText).1
      namedSumImport (by decide)⟩

/-- A stored diagnostic used to instantiate the deduplication
theorem. -/
def dupDiag : Diagnostic :=
  { range := ⟨1, 2, 1, 5⟩, message := str "duplicate entry", severity := 0
    source := none, code := none }

/-- Aggregator holding `dupDiag` for `f.ahk` under the alpha source. -/
def dedupState : AggregatorState :=
  setDiagnostics emptyAggregator (str "f.ahk") .alpha [dupDiag]

/-- C6 instantiated: the key of the stored diagnostic is represented in
the deduplicated view of `f.ahk`. -/
theorem deduplication_collapses_by_key_witness :
    ∃ e ∈ getDeduplicatedDiagnostics dedupState (str "f.ahk"),
      diagnosticKey e = diagnosticKey dupDiag := by
  have hagg : getDiagnostics dedupState (str "f.ahk") =
      [{ diagnostic := dupDiag, source := .alpha
         priority := SOURCE_PRIORITY .alpha }] := by
    unfold dedupState setDiagnostics getDiagnostics
    rw [mapGet_mapSet_self]
    show List.mergeSort
      [{ diagnostic := dupDiag, source := .alpha
         priority := SOURCE_PRIORITY .alpha }] aggLE = _
    exact List.mergeSort_singleton _
  exact (deduplication_collapses_by_key dedupState (str "f.ahk")).2.2.1
    { diagnostic := dupDiag, source := .alpha
      priority := SOURCE_PRIORITY .alpha }
    (by rw [hagg]; exact List.mem_singleton_self _)
